import Mathlib

set_option maxHeartbeats 1000000

namespace Projclean

/-! Shallow embedding of the projclean core (src/common.rs, src/fs.rs, src/app.rs).
Strings are Lean `String`s; Rust `HashMap`s appear as association lists with
unique keys, except where the code observably depends on a `HashMap`'s
unspecified iteration order, in which case the order is an explicit parameter. -/

/-- Rust `str::split(c)` on the underlying character list: splits at every
occurrence of `c` and always yields at least one (possibly empty) piece. -/
def splitOnCharL (c : Char) : List Char → List (List Char)
  | [] => [[]]
  | a :: rest =>
    if a = c then [] :: splitOnCharL c rest
    else
      match splitOnCharL c rest with
      | [] => [[a]]
      | p :: ps => (a :: p) :: ps

/-- Rust `str::split(c)` on a `String`. -/
def splitChar (c : Char) (s : String) : List String :=
  (splitOnCharL c s.data).map (fun l => ⟨l⟩)

/-- Rust `str::split_once(c)`: the text before the first `c` and the text after it,
or `none` when `c` does not occur. -/
def splitOnce (c : Char) (s : String) : Option (String × String) :=
  match splitOnCharL c s.data with
  | [] => none
  | [_] => none
  | p :: ps => some (⟨p⟩, ⟨List.intercalate [c] ps⟩)

/-- Rust `str::trim`: whitespace removed from both ends. -/
def trimS (s : String) : String :=
  ⟨((s.data.dropWhile Char.isWhitespace).reverse.dropWhile Char.isWhitespace).reverse⟩

/-- A compiled `glob::Pattern` of the external glob crate, represented by its
`matches` function on names. -/
abbrev Pattern := String → Bool

/-- Modelled from the glob crate dependency: a literal pattern (one containing no
`*`, `?` or `[`) matches exactly itself. -/
def litPattern (p : String) : Pattern := fun name => name == p

/-- Modelled from the glob crate dependency: `glob::Pattern::new` restricted to
literal patterns, on which compilation always succeeds. Used to instantiate the
glob-compiler parameter at concrete inputs. -/
def litCompile (p : String) : Option Pattern := some (litPattern p)

/-- `Rule` of src/common.rs: the raw rule string as id, the map from trigger
directory name to the purge paths headed by it (Rust `HashMap<String, Vec<String>>`,
here an association list with unique keys), and the compiled detector globs. -/
structure Rule where
  id : String
  targets : List (String × List String)
  detects : List Pattern

/-- Lookup in an association list, the model of `HashMap::get`. -/
def lookupAssoc {α : Type} (m : List (String × α)) (k : String) : Option α :=
  (m.find? (fun e => e.1 == k)).map (fun e => e.2)

/-- `Rule::get_id`. -/
def Rule.get_id (r : Rule) : String := r.id

/-- `Rule::check_target`: `self.targets.get(name)`. -/
def Rule.check_target (r : Rule) (name : String) : Option (List String) :=
  lookupAssoc r.targets name

/-- `Rule::no_detect`: `self.detects.is_empty()`. -/
def Rule.no_detect (r : Rule) : Bool := r.detects.isEmpty

/-- `Rule::check_project`: false for a no-detect rule, otherwise true iff some
detector glob matches the name. -/
def Rule.check_project (r : Rule) (name : String) : Bool :=
  if r.no_detect then false else r.detects.any (fun p => p name)

/-- The `targets.entry(dir).or_default().push(target)` step of `Rule::from_str`. -/
def insertTarget : List (String × List String) → String → String → List (String × List String)
  | [], k, v => [(k, [v])]
  | (k0, vs) :: rest, k, v =>
    if k0 == k then (k0, vs ++ [v]) :: rest else (k0, vs) :: insertTarget rest k v

/-- `Rule::from_str` of src/common.rs, parameterised by the external glob compiler
`compile` (Rust `glob::Pattern::new`); the `none` result is the `InvalidRule`
error. The purge list is split from the part before the first `@` (trimmed when
an `@` is present), the detector list from the trimmed part after it. -/
def Rule.from_str (compile : String → Option Pattern) (s : String) : Option Rule :=
  let parts :=
    match splitOnce '@' s with
    | some (v1, v2) => (splitChar ',' (trimS v1), trimS v2)
    | none => (splitChar ',' s, "")
  if parts.1.isEmpty then none
  else
    match (if parts.2 == "" then some [] else (splitChar ',' parts.2).mapM compile) with
    | none => none
    | some detects =>
      some { id := s
             targets := parts.1.foldl (fun m target =>
               match splitOnce '/' target with
               | some (dir, _) => insertTarget m dir target
               | none => insertTarget m target target) []
             detects := detects }

/-- The trimmed detector segment of a rule string (empty when no `@` is present),
as computed inside `Rule::from_str`. -/
def ruleDetectStr (s : String) : String :=
  match splitOnce '@' s with
  | some (_, v2) => trimS v2
  | none => ""

/-- `Config` of src/common.rs: ordered rules, exclude list, and the optional
time filter in days and size filter in bytes, each with its comparison order. -/
structure Config where
  rules : List Rule
  exclude : List String
  time : Option (Nat × Ordering)
  size : Option (Nat × Ordering)

/-- `Config::is_rule_no_detect`: finds the first rule with the given id. -/
def Config.is_rule_no_detect (cfg : Config) (id : String) : Bool :=
  match cfg.rules.find? (fun r => r.id == id) with
  | some r => r.no_detect
  | none => false

/-- The `compare` helper of src/fs.rs: compares the measured `target` against the
configured `expect` under the configured ordering. -/
def compare (order : Ordering) (expect target : Nat) : Bool :=
  match order with
  | .lt => decide (target < expect)
  | .eq => target == expect
  | .gt => decide (target > expect)

/-- The sibling names actually streamed through the `Checker`: names of the
directory listing that are not in the exclude list (src/fs.rs, checker loop of
`process_read_dir`). -/
def checkedNames (cfg : Config) (names : List String) : List String :=
  names.filter (fun n => !(cfg.exclude.contains n))

/-- Contents of `CheckMatches::purge` for one rule once the whole listing has been
streamed: the checked names that are triggers of the rule. -/
def rulePurge (r : Rule) (checked : List String) : List String :=
  checked.filter (fun n => (r.check_target n).isSome)

/-- Whether `CheckMatches::check` is non-empty for one rule: its detector fired on
some checked sibling name. -/
def ruleFired (r : Rule) (checked : List String) : Bool :=
  checked.any (fun n => r.check_project n)

/-- The guard of `Checker::to_matches` on one rule's `CheckMatches`. -/
def gate (cfg : Config) (r : Rule) (checked : List String) : Bool :=
  !(rulePurge r checked).isEmpty && (ruleFired r checked || cfg.is_rule_no_detect r.id)

/-- The decision mapping built by `Checker::to_matches`: trigger name to
(rule id, purge paths). Rust uses a `HashMap`; keys stay unique because
insertion is skipped for present keys. -/
abbrev MatchMap := List (String × String × List String)

/-- Model of `output.contains_key(name)`. -/
def containsKey (out : MatchMap) (n : String) : Bool :=
  (out.find? (fun e => e.1 == n)).isSome

/-- The `if !output.contains_key(name) then output.insert(name, (rule_id, purges))`
step of `Checker::to_matches`. -/
def insertIfAbsent (out : MatchMap) (n rid : String) (ps : List String) : MatchMap :=
  if containsKey out n then out else out ++ [(n, rid, ps)]

/-- One rule's insertion loop inside `Checker::to_matches`. -/
def ruleInsert (out : MatchMap) (rid : String) (r : Rule) (checked : List String) : MatchMap :=
  (rulePurge r checked).foldl
    (fun acc n => insertIfAbsent acc n rid ((r.check_target n).getD [])) out

/-- `Checker::to_matches` of src/fs.rs. Rust iterates `self.matches`, a `HashMap`
keyed by rule id, in an unspecified iteration order; `ord` is that order (any
permutation of the rule ids can occur at run time). -/
def to_matches (cfg : Config) (ord : List String) (checked : List String) : MatchMap :=
  ord.foldl
    (fun out rid =>
      match cfg.rules.find? (fun r => r.id == rid) with
      | none => out
      | some r => if gate cfg r checked then ruleInsert out rid r checked else out)
    []

/-- A node of the scanned file tree. For a regular file, `len` is the metadata
length (`none` when the metadata lookup fails). `age` is now minus the node's
mtime in whole seconds (`none` when `last_modified` fails on it). For a
directory, `readable` says whether reading its children succeeds; jwalk yields
an `Err` stream item for a directory whose read fails. -/
inductive FNode where
  | file (len : Option Nat) (age : Option Nat)
  | dir (readable : Bool) (age : Option Nat) (children : List (String × FNode))

/-- The mtime measurement of a node: what `last_modified(path).ok()` returns. -/
def FNode.age : FNode → Option Nat
  | .file _ a => a
  | .dir _ a _ => a

/-- Well-formed tree: sibling names are distinct at every level, as on a real
file system. -/
inductive FNode.Wf : FNode → Prop where
  | file : ∀ l a, Wf (.file l a)
  | dir : ∀ r a cs, (cs.map Prod.fst).Nodup → (∀ e ∈ cs, Wf e.2) → Wf (.dir r a cs)

/-- Resolving a relative path against a node, the model of `path.exists()` and of
metadata lookups on a resolved purge path (existence on disk is independent of
directory readability). -/
def FNode.lookup : FNode → List String → Option FNode
  | n, [] => some n
  | .file _ _, _ :: _ => none
  | .dir _ _ cs, part :: rest =>
    match cs.find? (fun e => e.1 == part) with
    | some e => e.2.lookup rest
    | none => none

mutual
/-- Contribution of one yielded child entry (and its subtree) to `du` of src/fs.rs:
a regular file contributes its metadata length with a failed lookup contributing
zero (`unwrap_or_default`), a directory contributes nothing itself, and a
directory whose read fails puts an `Err` item in the stream, which the
`dir_entry_result?` line turns into an error aborting the whole sum. -/
def duEntry : FNode → Except Unit Nat
  | .file len _ => .ok (len.getD 0)
  | .dir false _ _ => .error ()
  | .dir true _ cs => duDir cs
/-- Sum of `duEntry` over a children list, with errors propagated. -/
def duDir : List (String × FNode) → Except Unit Nat
  | [] => .ok 0
  | e :: rest =>
    match duEntry e.2, duDir rest with
    | .ok a, .ok b => .ok (a + b)
    | .error u, _ => .error u
    | _, .error u => .error u
end

/-- `du` of src/fs.rs on a root path. The root entry itself is yielded with a
default (empty) client state, so a regular-file root contributes nothing; an
unreadable directory produces an `Err` item and hence an error. -/
def du : FNode → Except Unit Nat
  | .file _ _ => .ok 0
  | .dir false _ _ => .error ()
  | .dir true _ cs => duDir cs

mutual
/-- Total of the metadata lengths of all files strictly inside a tree (every
child counted, hidden names included, directories contributing nothing). -/
def totalLen : FNode → Nat
  | .file len _ => len.getD 0
  | .dir _ _ cs => totalLenDir cs
def totalLenDir : List (String × FNode) → Nat
  | [] => 0
  | e :: rest => totalLen e.2 + totalLenDir rest
end

mutual
/-- Whether some directory in the tree (the root included) is unreadable. -/
def hasUnreadable : FNode → Bool
  | .file _ _ => false
  | .dir r _ cs => !r || hasUnreadableDir cs
def hasUnreadableDir : List (String × FNode) → Bool
  | [] => false
  | e :: rest => hasUnreadable e.2 || hasUnreadableDir rest
end

/-- `PathState` of src/common.rs. -/
inductive PathState where
  | Normal
  | StartDeleting
  | Deleted
deriving DecidableEq

/-- `PathItem` of src/common.rs, with paths as component lists relative to the
scan root (the constant absolute prefix of the root is omitted, so `path` and
`relative_path` carry the same components; the display text fields are not
modelled). -/
structure PathItem where
  path : List String
  relative_path : List String
  rule_id : String
  time : Option Nat
  size : Option Nat
  state : PathState
deriving DecidableEq

/-- `Message` of src/common.rs. -/
inductive Message where
  | AddPath (item : PathItem)
  | SetPathDeleted (path : List String)
  | PutError (msg : String)
  | DoneSearch
deriving DecidableEq

/-- One item of the jwalk result stream in `search`: a yielded directory entry
with its path, node and optional carried `client_state`, or an `Err` item. -/
inductive WalkItem where
  | ok (path : List String) (node : FNode) (state : Option (String × List String))
  | err

/-- Per-child outcome of the marking pass of `process_read_dir` in src/fs.rs:
the optional `client_state` mark and whether descent is suppressed
(`read_children_path = None`). -/
structure ChildMark where
  name : String
  node : FNode
  state : Option (String × List String)
  pruned : Bool

/-- The `process_read_dir` callback of `search` on one directory's children:
stream all non-excluded names (regardless of file type) through a fresh
`Checker`, then mark matched names and prune excluded or matched children. -/
def processDir (cfg : Config) (ord : List String) (cs : List (String × FNode)) :
    List ChildMark :=
  let ms := to_matches cfg ord (checkedNames cfg (cs.map Prod.fst))
  cs.map (fun e =>
    if cfg.exclude.contains e.1 then ⟨e.1, e.2, none, true⟩
    else
      match ms.find? (fun m => m.1 == e.1) with
      | some m => ⟨e.1, e.2, some (m.2.1, m.2.2), true⟩
      | none => ⟨e.1, e.2, none, false⟩)

mutual
/-- The stream of entries jwalk yields strictly below a node at relative path `p`
(top-down order): nothing below a file, an `Err` item for an unreadable
directory, and for a readable directory each child entry followed by its own
subtree when descent was not suppressed. -/
def walkChildren (cfg : Config) (ord : List String) (p : List String) :
    FNode → List WalkItem
  | .file _ _ => []
  | .dir false _ _ => [.err]
  | .dir true _ cs =>
    goChildren cfg ord p (to_matches cfg ord (checkedNames cfg (cs.map Prod.fst))) cs
/-- The per-child part of `walkChildren` for one directory whose decision mapping
is `ms`: excluded children and matched children are yielded but not descended
into; other children are yielded and recursed into. -/
def goChildren (cfg : Config) (ord : List String) (p : List String)
    (ms : MatchMap) : List (String × FNode) → List WalkItem
  | [] => []
  | (name, child) :: rest =>
    if cfg.exclude.contains name then
      WalkItem.ok (p ++ [name]) child none :: goChildren cfg ord p ms rest
    else
      match ms.find? (fun m => m.1 == name) with
      | some m =>
        WalkItem.ok (p ++ [name]) child (some (m.2.1, m.2.2)) ::
          goChildren cfg ord p ms rest
      | none =>
        WalkItem.ok (p ++ [name]) child none ::
          (walkChildren cfg ord (p ++ [name]) child ++ goChildren cfg ord p ms rest)
end

/-- The whole jwalk result stream of `search`: the root entry (carrying no
client state) followed by everything below it. -/
def searchWalk (cfg : Config) (ord : List String) (root : FNode) : List WalkItem :=
  WalkItem.ok [] root none :: walkChildren cfg ord [] root

/-- The segments pushed onto the entry path for one purge path:
`purge.split('/').skip(1)`, with empty segments dropped since pushing an empty
component is a no-op. -/
def tailParts (purge : String) : List String :=
  ((splitOnCharL '/' purge.data).map (fun l => (⟨l⟩ : String))).drop 1
    |>.filter (fun s => !(s == ""))

/-- Whole days, rounded up, of an age in seconds:
`(time.as_secs_f64() / 86400.0).ceil()` (exact for the integral second counts
modelled here). -/
def ceilDays (secs : Nat) : Nat := (secs + 86399) / 86400

/-- The time-filter guard of the emission loop in `search`: skip only when both
the filter is configured and the measurement succeeded, and the comparison in
ceiling-days fails. -/
def timeSkip (cfg : Config) (t : Option Nat) : Bool :=
  match cfg.time, t with
  | some (expect, order), some secs => !(compare order expect (ceilDays secs))
  | _, _ => false

/-- The size-filter guard of the emission loop in `search`, on the result of
`du(&path).ok()`. -/
def sizeSkip (cfg : Config) (s : Option Nat) : Bool :=
  match cfg.size, s with
  | some (expect, order), some size => !(compare order expect size)
  | _, _ => false

/-- Conversion of the `du` result to `du(&path).ok()`. -/
def exceptToOption (e : Except Unit Nat) : Option Nat :=
  match e with
  | .ok a => some a
  | .error _ => none

/-- Emission for one purge path carried by a marked entry at relative path `p`
with node `node`: resolve the tail against the entry, skip when the resolved
path does not exist or a configured filter rejects a successful measurement,
otherwise send one `AddPath`. The `strip_prefix(&entry)` of the emission loop
is total here: every yielded path extends the scan root syntactically, so the
model builds the relative path directly. -/
def emitPurge (cfg : Config) (p : List String) (node : FNode) (rid : String)
    (purge : String) : List Message :=
  match node.lookup (tailParts purge) with
  | none => []
  | some t =>
    if timeSkip cfg t.age then []
    else if sizeSkip cfg (exceptToOption (du t)) then []
    else
      [Message.AddPath
        { path := p ++ tailParts purge
          relative_path := p ++ tailParts purge
          rule_id := rid
          time := t.age
          size := exceptToOption (du t)
          state := .Normal }]

/-- Emission for one stream item: `Err` items and unmarked entries produce
nothing; a marked entry emits for each carried purge path in order. -/
def emitEntry (cfg : Config) : WalkItem → List Message
  | .err => []
  | .ok _ _ none => []
  | .ok p node (some (rid, purges)) => purges.flatMap (emitPurge cfg p node rid)

/-- The result loop of `search`: before processing the i-th stream item the
cancellation flag is polled (`running i` is the value read); a lowered flag
sends `DoneSearch` and returns at once, and an exhausted stream sends the final
`DoneSearch`. -/
def searchLoop (cfg : Config) (running : Nat → Bool) : Nat → List WalkItem → List Message
  | _, [] => [Message.DoneSearch]
  | i, it :: rest =>
    if running i then emitEntry cfg it ++ searchLoop cfg running (i + 1) rest
    else [Message.DoneSearch]

/-- The messages `search` of src/fs.rs sends on the event channel for one scan
run over the tree `root`, with `ord` the hash-map iteration order over rule ids
and `running` the polled cancellation flag. -/
def searchRun (cfg : Config) (ord : List String) (root : FNode)
    (running : Nat → Bool) : List Message :=
  searchLoop cfg running 0 (searchWalk cfg ord root)

/-- The slice of `App` of src/app.rs that deletion requests act on: the item
list and the current selection index. -/
structure AppModel where
  items : List PathItem
  selected : Option Nat

/-- `App::start_deleting_item`: on a selected item in state `Normal` with a known
size, set the state to `StartDeleting` and return the path to dispatch;
otherwise change nothing and dispatch nothing. Rust indexes `items[index]`
directly — the selection is kept in bounds by the navigation code, so the
out-of-range branch here (returning nothing) is unreachable in the program. -/
def start_deleting_item (app : AppModel) : AppModel × Option (List String) :=
  match app.selected with
  | none => (app, none)
  | some index =>
    match app.items.get? index with
    | none => (app, none)
    | some item =>
      if item.state ≠ PathState.Normal ∨ item.size = none then (app, none)
      else
        ({ app with items := app.items.set index { item with state := .StartDeleting } },
          some item.path)

/-- The item loop of `App::delete_all_items`: every item in state `Normal` with a
known size moves to `StartDeleting` and its path is dispatched, in list order. -/
def delete_all_loop : List PathItem → List PathItem × List (List String)
  | [] => ([], [])
  | item :: rest =>
    let r := delete_all_loop rest
    if item.state = PathState.Normal ∧ item.size.isSome then
      ({ item with state := .StartDeleting } :: r.1, item.path :: r.2)
    else (item :: r.1, r.2)

/-- `App::delete_all_items` on the modelled slice of `App`. -/
def delete_all_items (app : AppModel) : AppModel × List (List String) :=
  let r := delete_all_loop app.items
  ({ app with items := r.1 }, r.2)

/-- The untrimmed-vs-trimmed purge segment split of `Rule::from_str`: the pieces
of the part before the first `@` (the whole string when there is no `@`). -/
def ruleTargetStrs (s : String) : List String :=
  match splitOnce '@' s with
  | some (v1, _) => splitChar ',' (trimS v1)
  | none => splitChar ',' s

/-- The binding a `MatchMap` gives a trigger name, the model of `HashMap::get`
on the decision mapping. -/
def bindOf (out : MatchMap) (n : String) : Option (String × List String) :=
  (out.find? (fun e => e.1 == n)).map (fun e => e.2)

/-- First-some choice on options (`a` when present, otherwise `b`). -/
def orSome {α : Type} (a b : Option α) : Option α :=
  match a with
  | some v => some v
  | none => b

/-- Whether the iteration step for rule id `rid` inside `Checker::to_matches`
would insert the trigger name `n`: the rule exists, its guard passes, and `n` is
one of its candidate triggers. -/
def claimsTrigger (cfg : Config) (checked : List String) (n rid : String) : Bool :=
  match cfg.rules.find? (fun r => r.id == rid) with
  | none => false
  | some r => gate cfg r checked && (rulePurge r checked).contains n

/-- The value such a step would insert for `n`. -/
def claimedValue (cfg : Config) (checked : List String) (n rid : String) :
    String × List String :=
  match cfg.rules.find? (fun r => r.id == rid) with
  | some r => (rid, (r.check_target n).getD [])
  | none => (rid, [])

/-- The parse of the rule string `target@Cargo.toml`. -/
def ruleTC : Rule :=
  { id := "target@Cargo.toml", targets := [("target", ["target"])],
    detects := [litPattern "Cargo.toml"] }

/-- The parse of the rule string `target`. -/
def ruleT : Rule :=
  { id := "target", targets := [("target", ["target"])], detects := [] }

/-- The parse of the rule string `project/target`. -/
def rulePT : Rule :=
  { id := "project/target", targets := [("project", ["project/target"])], detects := [] }

/-- A configuration holding only the rule `target@Cargo.toml`. -/
def cfgTC : Config := { rules := [ruleTC], exclude := [], time := none, size := none }

/-- The rule-id iteration order for `cfgTC` (a single id, so the only order). -/
def ordTC : List String := ["target@Cargo.toml"]

/-- A configuration holding `target@Cargo.toml` followed by `target`. -/
def cfgTwo : Config := { rules := [ruleTC, ruleT], exclude := [], time := none, size := none }

/-- A configuration holding only `project/target`, with `target` excluded. -/
def cfgPT : Config :=
  { rules := [rulePT], exclude := ["target"], time := none, size := none }

/-- A directory whose children are the regular files `target` and `Cargo.toml`. -/
def treeFileTrigger : FNode :=
  .dir true none [("target", .file (some 3) none), ("Cargo.toml", .file (some 10) none)]

/-- A directory containing `project/target/`, all directories. -/
def treeNested : FNode :=
  .dir true none [("project", .dir true none [("target", .dir true none [])])]

/-- A readable directory holding a 5-byte file and an unreadable subdirectory. -/
def treeBadSub : FNode :=
  .dir true none [("f", .file (some 5) none), ("bad", .dir false none [])]

/-- A children listing in which every entry is a directory, one of them named
like the `Cargo.toml` detector. -/
def csAllDirs : List (String × FNode) :=
  [("target", FNode.dir true none []), ("Cargo.toml", FNode.dir true none [])]

/-- The children of `csAllDirs` with every node replaced by a regular file. -/
def csAllFiles : List (String × FNode) :=
  [("target", FNode.file none none), ("Cargo.toml", FNode.file none none)]

/-- What `du` totals when no read error occurs: the root entry itself never
contributes (its client state stays empty), the files strictly below do. -/
def duTotal : FNode → Nat
  | .file _ _ => 0
  | .dir _ _ cs => totalLenDir cs

/-- A configuration with a time filter (strictly more than one day) and no rules. -/
def cfgTimeF : Config :=
  { rules := [], exclude := [], time := some (1, Ordering.gt), size := none }

/-- A `PathItem` in state `Normal` with a known size. -/
def itemW : PathItem :=
  { path := ["a"], relative_path := ["a"], rule_id := "r", time := none,
    size := some 4, state := .Normal }

/-- An `App` slice holding `itemW` with it selected. -/
def appW : AppModel := { items := [itemW], selected := some 0 }

/-- Invariant of every `ok` item yielded below path `p` of node `n`: its path
extends `p` by a non-empty suffix that resolves (in a well-formed tree) to the
carried node, and a marked item's suffix contains no excluded name. -/
def WalkOkSpec (cfg : Config) (p : List String) (n : FNode) (it : WalkItem) : Prop :=
  ∀ q m st, it = WalkItem.ok q m st →
    ∃ rel, rel ≠ [] ∧ q = p ++ rel ∧
      (FNode.Wf n → n.lookup rel = some m) ∧
      (st ≠ none → ∀ s ∈ rel, cfg.exclude.contains s = false)

/-- The same invariant phrased against a children listing: the item descends
from one listed child. -/
def GoSpec (cfg : Config) (p : List String) (cs : List (String × FNode))
    (it : WalkItem) : Prop :=
  ∀ q m st, it = WalkItem.ok q m st →
    ∃ name child rel2, (name, child) ∈ cs ∧ q = p ++ name :: rel2 ∧
      (FNode.Wf child → child.lookup rel2 = some m) ∧
      (st ≠ none → cfg.exclude.contains name = false ∧
        ∀ s ∈ rel2, cfg.exclude.contains s = false)

/-! Helper lemmas about the decision mapping. -/

theorem containsKey_eq (out : MatchMap) (n : String) :
    containsKey out n = (bindOf out n).isSome := by
  unfold containsKey bindOf
  cases h : out.find? (fun e => e.1 == n) <;> simp [h]

theorem orSome_none {α : Type} (a : Option α) : orSome a none = a := by
  cases a <;> rfl

theorem orSome_absorb {α : Type} (a : Option α) (v : α) (b : Option α) :
    orSome (orSome a (some v)) b = orSome a (some v) := by
  cases a <;> rfl

theorem bindOf_nil (n : String) : bindOf [] n = none := rfl

theorem bindOf_append (out : MatchMap) (m rid : String) (ps : List String) (n : String) :
    bindOf (out ++ [(m, rid, ps)]) n =
      orSome (bindOf out n) (if m == n then some (rid, ps) else none) := by
  unfold bindOf
  rw [List.find?_append]
  cases h : out.find? (fun e => e.1 == n)
  · cases hm : m == n <;> simp [Option.or, orSome, List.find?_cons, hm]
  · simp [Option.or, orSome]

theorem bindOf_insertIfAbsent (out : MatchMap) (m rid : String) (ps : List String)
    (n : String) :
    bindOf (insertIfAbsent out m rid ps) n =
      if m == n then orSome (bindOf out n) (some (rid, ps)) else bindOf out n := by
  unfold insertIfAbsent
  cases hk : containsKey out m
  · rw [if_neg (by simp [hk]), bindOf_append]
    cases hm : m == n
    · simp [hm, orSome_none]
    · simp [hm]
  · rw [if_pos (by simp [hk])]
    cases hm : m == n
    · simp [hm]
    · have hmn : m = n := by exact eq_of_beq hm
      subst hmn
      rw [containsKey_eq] at hk
      cases hb : bindOf out m
      · rw [hb] at hk; simp at hk
      · simp [hm, orSome, hb]

theorem bindOf_insertFold (rid : String) (f : String → List String) (n : String) :
    ∀ (l : List String) (out : MatchMap),
      bindOf (l.foldl (fun acc x => insertIfAbsent acc x rid (f x)) out) n =
        if l.contains n then orSome (bindOf out n) (some (rid, f n))
        else bindOf out n := by
  intro l
  induction l with
  | nil => intro out; simp
  | cons m rest ih =>
    intro out
    rw [List.foldl_cons, ih]
    by_cases hmn : m = n
    · subst hmn
      rw [bindOf_insertIfAbsent]
      simp only [beq_self_eq_true, if_true]
      by_cases hc : rest.contains m <;>
        simp [hc, List.contains_cons, orSome_absorb]
    · have hm : (m == n) = false := by simp [hmn]
      rw [bindOf_insertIfAbsent, hm]
      simp only [Bool.false_eq_true, if_false]
      have : (m :: rest).contains n = rest.contains n := by
        simp [List.contains_cons, Ne.symm hmn]
      rw [this]

theorem bindOf_ruleInsert (out : MatchMap) (rid : String) (r : Rule)
    (checked : List String) (n : String) :
    bindOf (ruleInsert out rid r checked) n =
      if (rulePurge r checked).contains n then
        orSome (bindOf out n) (some (rid, (r.check_target n).getD []))
      else bindOf out n := by
  unfold ruleInsert
  exact bindOf_insertFold rid (fun x => (r.check_target x).getD []) n (rulePurge r checked) out

theorem bindOf_to_matches_aux (cfg : Config) (checked : List String) (n : String) :
    ∀ (l : List String) (out : MatchMap),
      bindOf (l.foldl (fun out0 rid =>
          match cfg.rules.find? (fun r => r.id == rid) with
          | none => out0
          | some r => if gate cfg r checked then ruleInsert out0 rid r checked else out0)
        out) n =
        orSome (bindOf out n)
          ((l.find? (claimsTrigger cfg checked n)).map (claimedValue cfg checked n)) := by
  intro l
  induction l with
  | nil => intro out; simp [orSome_none]
  | cons rid rest ih =>
    intro out
    rw [List.foldl_cons, ih]
    cases hfind : cfg.rules.find? (fun r => r.id == rid) with
    | none =>
      have hcl : claimsTrigger cfg checked n rid = false := by
        simp [claimsTrigger, hfind]
      simp only [hfind]
      rw [List.find?_cons_of_neg _ (by simp [hcl])]
    | some r =>
      cases hg : gate cfg r checked with
      | false =>
        have hcl : claimsTrigger cfg checked n rid = false := by
          simp [claimsTrigger, hfind, hg]
        simp only [hfind, hg, Bool.false_eq_true, if_false]
        rw [List.find?_cons_of_neg _ (by simp [hcl])]
      | true =>
        simp only [hfind, hg, if_true]
        rw [bindOf_ruleInsert]
        cases hc : (rulePurge r checked).contains n with
        | false =>
          have hcl : claimsTrigger cfg checked n rid = false := by
            simp [claimsTrigger, hfind, hg]
            simpa using hc
          simp only [hc, Bool.false_eq_true, if_false]
          rw [List.find?_cons_of_neg _ (by simp [hcl])]
        | true =>
          have hcl : claimsTrigger cfg checked n rid = true := by
            simp [claimsTrigger, hfind, hg]
            simpa using hc
          rw [List.find?_cons_of_pos _ hcl]
          have hv : claimedValue cfg checked n rid = (rid, (r.check_target n).getD []) := by
            simp [claimedValue, hfind]
          simp [hc, hv, orSome_absorb]

theorem bindOf_to_matches (cfg : Config) (ord checked : List String) (n : String) :
    bindOf (to_matches cfg ord checked) n =
      (ord.find? (claimsTrigger cfg checked n)).map (claimedValue cfg checked n) := by
  unfold to_matches
  rw [bindOf_to_matches_aux]
  rfl

theorem claimedValue_fst (cfg : Config) (checked : List String) (n rid : String) :
    (claimedValue cfg checked n rid).1 = rid := by
  unfold claimedValue
  cases cfg.rules.find? (fun r => r.id == rid) <;> rfl

theorem find?_id_self :
    ∀ (l : List Rule), (l.map Rule.id).Nodup → ∀ r ∈ l,
      l.find? (fun r0 => r0.id == r.id) = some r := by
  intro l
  induction l with
  | nil => intro _ r hr; cases hr
  | cons r0 rest ih =>
    intro hnd r hr
    rw [List.map_cons, List.nodup_cons] at hnd
    cases hb : (r0.id == r.id)
    · have hne : r ≠ r0 := by
        intro he; subst he; simp at hb
      have hrest : r ∈ rest := by
        cases List.mem_cons.mp hr with
        | inl h => exact absurd h hne
        | inr h => exact h
      rw [List.find?_cons_of_neg _ (by simp [hb])]
      exact ih hnd.2 r hrest
    · have heq : r0.id = r.id := eq_of_beq hb
      have hr0 : r = r0 := by
        cases List.mem_cons.mp hr with
        | inl h => exact h
        | inr h =>
          exfalso
          exact hnd.1 (heq ▸ List.mem_map_of_mem Rule.id h)
      subst hr0
      exact List.find?_cons_of_pos _ hb

theorem mem_insertIfAbsent {e : String × String × List String} (out : MatchMap)
    (m rid : String) (ps : List String) (h : e ∈ insertIfAbsent out m rid ps) :
    e ∈ out ∨ e = (m, rid, ps) := by
  unfold insertIfAbsent at h
  by_cases hk : containsKey out m = true
  · rw [if_pos hk] at h
    exact Or.inl h
  · rw [if_neg hk] at h
    rcases List.mem_append.mp h with h1 | h1
    · exact Or.inl h1
    · simp at h1
      exact Or.inr h1

theorem mem_insertFold (rid : String) (f : String → List String) :
    ∀ (l : List String) (out : MatchMap) (e : String × String × List String),
      e ∈ l.foldl (fun acc x => insertIfAbsent acc x rid (f x)) out →
      e ∈ out ∨ ∃ x ∈ l, e = (x, rid, f x) := by
  intro l
  induction l with
  | nil =>
    intro out e h
    exact Or.inl h
  | cons m rest ih =>
    intro out e h
    rw [List.foldl_cons] at h
    rcases ih _ e h with h1 | ⟨x, hx, he⟩
    · rcases mem_insertIfAbsent _ _ _ _ h1 with h2 | h2
      · exact Or.inl h2
      · exact Or.inr ⟨m, List.mem_cons_self m rest, h2⟩
    · exact Or.inr ⟨x, List.mem_cons_of_mem m hx, he⟩

theorem mem_to_matches_aux (cfg : Config) (checked : List String) :
    ∀ (l : List String) (out : MatchMap) (e : String × String × List String),
      e ∈ l.foldl (fun out0 rid =>
          match cfg.rules.find? (fun r => r.id == rid) with
          | none => out0
          | some r => if gate cfg r checked then ruleInsert out0 rid r checked else out0)
        out →
      e ∈ out ∨ ∃ r, cfg.rules.find? (fun r0 => r0.id == e.2.1) = some r ∧
        gate cfg r checked = true ∧ e.1 ∈ rulePurge r checked ∧
        e.2.2 = (r.check_target e.1).getD [] := by
  intro l
  induction l with
  | nil =>
    intro out e h
    exact Or.inl h
  | cons rid rest ih =>
    intro out e h
    rw [List.foldl_cons] at h
    rcases ih _ e h with h1 | h1
    · cases hfind : cfg.rules.find? (fun r => r.id == rid) with
      | none =>
        simp only [hfind] at h1
        exact Or.inl h1
      | some r =>
        simp only [hfind] at h1
        cases hg : gate cfg r checked with
        | false =>
          simp [hg] at h1
          exact Or.inl h1
        | true =>
          simp only [hg, if_true] at h1
          rcases mem_insertFold rid _ _ _ _ h1 with h2 | ⟨x, hx, he⟩
          · exact Or.inl h2
          · subst he
            exact Or.inr ⟨r, hfind, hg, hx, rfl⟩
    · exact Or.inr h1

theorem mem_to_matches (cfg : Config) (ord checked : List String)
    (e : String × String × List String) (h : e ∈ to_matches cfg ord checked) :
    ∃ r, cfg.rules.find? (fun r0 => r0.id == e.2.1) = some r ∧
      gate cfg r checked = true ∧ e.1 ∈ rulePurge r checked ∧
      e.2.2 = (r.check_target e.1).getD [] := by
  unfold to_matches at h
  rcases mem_to_matches_aux cfg checked ord [] e h with h1 | h1
  · cases h1
  · exact h1

theorem is_rule_no_detect_of_find (cfg : Config) (r : Rule)
    (h : cfg.rules.find? (fun r0 => r0.id == r.id) = some r) :
    cfg.is_rule_no_detect r.id = r.no_detect := by
  simp [Config.is_rule_no_detect, h]

/-- C1: for every directory listing, the decision mapping finalised by
`Checker::to_matches` contains an entry attributed to a rule only if that rule's
detector fired on some non-excluded sibling name or the rule has no detectors
(first conjunct); whenever one of these holds and a non-excluded sibling name is
a candidate trigger of the rule, that name is a key of the mapping (second
conjunct); in particular a rule with detectors whose detector fired on no
non-excluded sibling contributes no entry at all (third conjunct). -/
theorem c1_matcher_inclusion (cfg : Config) (ord names : List String)
    (hids : (cfg.rules.map Rule.id).Nodup)
    (hord : ∀ r ∈ cfg.rules, r.id ∈ ord) :
    (∀ n rid ps, (n, rid, ps) ∈ to_matches cfg ord (checkedNames cfg names) →
      ∃ r ∈ cfg.rules, r.id = rid ∧ r.check_target n = some ps ∧
        n ∈ checkedNames cfg names ∧
        (ruleFired r (checkedNames cfg names) = true ∨ r.no_detect = true)) ∧
    (∀ r ∈ cfg.rules, ∀ n ∈ checkedNames cfg names,
      (r.check_target n).isSome = true →
      (ruleFired r (checkedNames cfg names) = true ∨ r.no_detect = true) →
      containsKey (to_matches cfg ord (checkedNames cfg names)) n = true) ∧
    (∀ r ∈ cfg.rules, r.no_detect = false →
      ruleFired r (checkedNames cfg names) = false →
      ∀ n rid ps, (n, rid, ps) ∈ to_matches cfg ord (checkedNames cfg names) →
        rid ≠ r.id) := by
  refine ⟨?_, ?_, ?_⟩
  · intro n rid ps hmem
    rcases mem_to_matches cfg ord _ (n, rid, ps) hmem with ⟨r, hfind, hg, hn, hps⟩
    have hrid : r.id = rid := by
      have hb := List.find?_some hfind
      simpa using hb
    have hr : r ∈ cfg.rules := List.mem_of_find?_eq_some hfind
    have hnfilter := List.mem_filter.mp hn
    have hsome : (r.check_target n).isSome = true := hnfilter.2
    rcases Option.isSome_iff_exists.mp hsome with ⟨v, hv⟩
    have hval : r.check_target n = some ps := by
      rw [hv] at hps ⊢
      simp at hps
      rw [hps]
    have hfind2 : cfg.rules.find? (fun r0 => r0.id == r.id) = some r := by
      rw [hrid]; exact hfind
    unfold gate at hg
    rw [Bool.and_eq_true] at hg
    have hg2 := hg.2
    rw [is_rule_no_detect_of_find cfg r hfind2, Bool.or_eq_true] at hg2
    exact ⟨r, hr, hrid, hval, hnfilter.1, hg2⟩
  · intro r hr n hn hsome hfire
    have hfind : cfg.rules.find? (fun r0 => r0.id == r.id) = some r :=
      find?_id_self cfg.rules hids r hr
    have hp : n ∈ rulePurge r (checkedNames cfg names) :=
      List.mem_filter.mpr ⟨hn, hsome⟩
    have hne : (rulePurge r (checkedNames cfg names)).isEmpty = false := by
      cases hie : (rulePurge r (checkedNames cfg names)).isEmpty
      · rfl
      · rw [List.isEmpty_iff] at hie
        rw [hie] at hp
        cases hp
    have hclaims : claimsTrigger cfg (checkedNames cfg names) n r.id = true := by
      simp only [claimsTrigger, hfind]
      rw [Bool.and_eq_true]
      refine ⟨?_, by simpa using hp⟩
      unfold gate
      rw [Bool.and_eq_true, Bool.or_eq_true]
      refine ⟨by rw [hne]; rfl, ?_⟩
      rcases hfire with h | h
      · exact Or.inl h
      · refine Or.inr ?_
        rw [is_rule_no_detect_of_find cfg r hfind]
        exact h
    have hexists : (ord.find? (claimsTrigger cfg (checkedNames cfg names) n)).isSome = true :=
      List.find?_isSome.mpr ⟨r.id, hord r hr, hclaims⟩
    rw [containsKey_eq, bindOf_to_matches]
    cases hf : ord.find? (claimsTrigger cfg (checkedNames cfg names) n) with
    | none =>
      rw [hf] at hexists
      cases hexists
    | some rid0 => simp
  · intro r hr hnd hfire n rid ps hmem heq
    rcases mem_to_matches cfg ord _ (n, rid, ps) hmem with ⟨r0, hfind, hg, _, _⟩
    have hself : cfg.rules.find? (fun r1 => r1.id == r.id) = some r :=
      find?_id_self cfg.rules hids r hr
    rw [heq] at hfind
    rw [hself] at hfind
    have hr0 : r0 = r := (Option.some.inj hfind).symm
    subst hr0
    unfold gate at hg
    rw [Bool.and_eq_true, Bool.or_eq_true] at hg
    rcases hg.2 with h | h
    · rw [hfire] at h
      cases h
    · rw [is_rule_no_detect_of_find cfg r0 hself] at h
      rw [hnd] at h
      cases h

/-- Witness for C1: with the single rule `target@Cargo.toml` and the sibling
listing `target`, `Cargo.toml`, the trigger `target` is a key of the decision
mapping. -/
theorem c1_matcher_inclusion_witness :
    containsKey (to_matches cfgTC ordTC (checkedNames cfgTC ["target", "Cargo.toml"]))
      "target" = true := by
  have hids : (cfgTC.rules.map Rule.id).Nodup := by decide
  have hord : ∀ r ∈ cfgTC.rules, r.id ∈ ordTC := by
    intro r hr
    have : r = ruleTC := by
      simpa [cfgTC] using hr
    subst this
    decide
  exact (c1_matcher_inclusion cfgTC ordTC ["target", "Cargo.toml"] hids hord).2.1
    ruleTC (by simp [cfgTC]) "target" (by decide) (by decide) (Or.inl (by decide))

/-- C2 counterexample: with the rules `target@Cargo.toml` (configured first) and
`target` (configured second) and the siblings `target`, `Cargo.toml`, the rule
id hash map may legitimately iterate as [`target`, `target@Cargo.toml`]; the
decision mapping then binds the trigger `target` to the LATER configured rule
`target`, refuting the claim that the earlier rule always wins. -/
theorem c2_counterexample :
    (["target", "target@Cargo.toml"] : List String).Perm (cfgTwo.rules.map Rule.id) ∧
    to_matches cfgTwo ["target", "target@Cargo.toml"] ["target", "Cargo.toml"] =
      [("target", "target", ["target"])] ∧
    ("target" : String) ≠ "target@Cargo.toml" := by
  refine ⟨?_, rfl, by decide⟩
  have h : cfgTwo.rules.map Rule.id = ["target@Cargo.toml", "target"] := rfl
  rw [h]
  exact List.Perm.swap _ _ _

/-- C2 amended: when two rules would claim the same trigger name, the winner is
the rule whose id comes first in the hash map's (unspecified) iteration order
over rule ids, with later insertions skipping names already present; the
mapping binds each name to the first claiming rule id in that iteration order,
not necessarily the first in configured order. -/
theorem c2_hash_order_tiebreak (cfg : Config) (ord checked : List String) (n : String) :
    ((to_matches cfg ord checked).find? (fun e => e.1 == n)).map (fun e => e.2.1) =
      ord.find? (claimsTrigger cfg checked n) := by
  have hb : ((to_matches cfg ord checked).find? (fun e => e.1 == n)).map (fun e => e.2.1) =
      (bindOf (to_matches cfg ord checked) n).map Prod.fst := by
    unfold bindOf
    cases (to_matches cfg ord checked).find? (fun e => e.1 == n) <;> rfl
  rw [hb, bindOf_to_matches]
  cases hf : ord.find? (claimsTrigger cfg checked n) <;> simp [claimedValue_fst]

theorem any_map_fst (l : List (String × FNode)) (p : String → Bool) :
    (l.map Prod.fst).any p = l.any (fun e => p e.1) := by
  induction l with
  | nil => rfl
  | cons e rest ih => simp [ih]

/-- C5 counterexample: in a directory whose every sibling is itself a directory
(`target/` and `Cargo.toml/`), no regular file matches the `Cargo.toml`
detector glob, yet the checker loop streams every entry name regardless of file
type, so the detector fires and `target` is marked and pruned. -/
theorem c5_counterexample :
    (∀ e ∈ csAllDirs, ∃ a cs, e.2 = FNode.dir true a cs) ∧
    processDir cfgTC ordTC csAllDirs =
      [⟨"target", FNode.dir true none [], some ("target@Cargo.toml", ["target"]), true⟩,
       ⟨"Cargo.toml", FNode.dir true none [], none, false⟩] := by
  constructor
  · intro e he
    simp only [csAllDirs, List.mem_cons, List.not_mem_nil, or_false] at he
    rcases he with rfl | rfl
    · exact ⟨none, [], rfl⟩
    · exact ⟨none, [], rfl⟩
  · rfl

/-- C5 amended: detector matching depends only on sibling names, not on file
types: the marking outcome is unchanged when the nodes change as long as the
name sequence is unchanged, and a rule's detector fires exactly when some
non-excluded sibling entry name — of any file type — matches. -/
theorem c5_names_only (cfg : Config) (ord : List String)
    (cs cs0 : List (String × FNode)) (h : cs.map Prod.fst = cs0.map Prod.fst) :
    ((processDir cfg ord cs).map (fun m => (m.name, m.state, m.pruned)) =
      (processDir cfg ord cs0).map (fun m => (m.name, m.state, m.pruned))) ∧
    ∀ r : Rule, ruleFired r (checkedNames cfg (cs.map Prod.fst)) =
      cs.any (fun e => !(cfg.exclude.contains e.1) && r.check_project e.1) := by
  have key : ∀ (cs1 : List (String × FNode)),
      (processDir cfg ord cs1).map (fun m => (m.name, m.state, m.pruned)) =
        (cs1.map Prod.fst).map (fun name =>
          if cfg.exclude.contains name then (name, (none : Option (String × List String)), true)
          else
            match (to_matches cfg ord (checkedNames cfg (cs1.map Prod.fst))).find?
                (fun m => m.1 == name) with
            | some m => (name, some (m.2.1, m.2.2), true)
            | none => (name, none, false)) := by
    intro cs1
    simp only [processDir, List.map_map]
    apply List.map_congr_left
    intro e _
    dsimp only [Function.comp_apply]
    by_cases hx : cfg.exclude.contains e.1 = true
    · rw [if_pos hx, if_pos hx]
    · rw [if_neg hx, if_neg hx]
      cases (to_matches cfg ord (checkedNames cfg (cs1.map Prod.fst))).find?
          (fun m => m.1 == e.1) <;> rfl
  constructor
  · rw [key cs, key cs0, h]
  · intro r
    unfold ruleFired checkedNames
    rw [List.any_filter, any_map_fst]

/-- Witness for C5 amended: replacing the two directories by two regular files
with the same names leaves the marking unchanged. -/
theorem c5_names_only_witness :
    ((processDir cfgTC ordTC csAllDirs).map (fun m => (m.name, m.state, m.pruned)) =
      (processDir cfgTC ordTC csAllFiles).map (fun m => (m.name, m.state, m.pruned))) ∧
    ∀ r : Rule, ruleFired r (checkedNames cfgTC (csAllDirs.map Prod.fst)) =
      csAllDirs.any (fun e => !(cfgTC.exclude.contains e.1) && r.check_project e.1) :=
  c5_names_only cfgTC ordTC csAllDirs csAllFiles rfl

theorem ne_nil_isEmpty_false {α : Type} (l : List α) (h : l ≠ []) :
    l.isEmpty = false := by
  cases hc : l.isEmpty
  · rfl
  · rw [List.isEmpty_iff] at hc
    exact absurd hc h

theorem splitOnCharL_ne_nil (c : Char) (l : List Char) : splitOnCharL c l ≠ [] := by
  induction l with
  | nil => simp [splitOnCharL]
  | cons a rest ih =>
    unfold splitOnCharL
    by_cases h : a = c
    · simp [h]
    · simp only [h, if_false]
      cases hs : splitOnCharL c rest
      · simp
      · simp

theorem splitChar_ne_nil (c : Char) (s : String) : splitChar c s ≠ [] := by
  unfold splitChar
  intro h
  exact splitOnCharL_ne_nil c s.data (List.map_eq_nil_iff.mp h)

theorem mapM_option_isSome (f : String → Option Pattern) :
    ∀ (l : List String),
      ((l.mapM f).isSome = true ↔ ∀ p ∈ l, (f p).isSome = true) := by
  intro l
  induction l with
  | nil =>
    constructor
    · intro _ p hp
      cases hp
    · intro _
      rfl
  | cons a rest ih =>
    rw [List.mapM_cons]
    constructor
    · intro h p hp
      cases hfa : f a with
      | none => rw [hfa] at h; simp at h
      | some b =>
        cases hrest : rest.mapM f with
        | none => rw [hfa, hrest] at h; simp at h
        | some bs =>
          rcases List.mem_cons.mp hp with rfl | hp2
          · rw [hfa]; rfl
          · exact (ih.mp (by rw [hrest]; rfl)) p hp2
    · intro h
      have hfa : (f a).isSome = true := h a (List.mem_cons_self a rest)
      rcases Option.isSome_iff_exists.mp hfa with ⟨b, hb⟩
      have hrest : (rest.mapM f).isSome = true :=
        ih.mpr (fun p hp => h p (List.mem_cons_of_mem a hp))
      rcases Option.isSome_iff_exists.mp hrest with ⟨bs, hbs⟩
      rw [hb, hbs]
      rfl

/-- C6 counterexample: the rule string `@x`, whose purge list is empty in the
claim's sense, nevertheless parses successfully — splitting yields the single
empty trigger, so the empty-purge-list error branch is unreachable. -/
theorem c6_counterexample :
    Rule.from_str litCompile "@x" =
      some { id := "@x", targets := [("", [""])], detects := [litPattern "x"] } := rfl

/-- C6 amended: the purge list obtained by splitting is never empty, so parsing
never fails through it; `Rule::from_str` fails exactly when the detector
segment is non-empty and some detector glob fails to compile. -/
theorem c6_parse_characterization (compile : String → Option Pattern) (s : String) :
    ruleTargetStrs s ≠ [] ∧
    ((Rule.from_str compile s).isSome = true ↔
      (ruleDetectStr s = "" ∨
        ∀ p ∈ splitChar ',' (ruleDetectStr s), (compile p).isSome = true)) := by
  constructor
  · unfold ruleTargetStrs
    cases h : splitOnce '@' s with
    | none => exact splitChar_ne_nil ',' s
    | some v => exact splitChar_ne_nil ',' (trimS v.1)
  · unfold Rule.from_str ruleDetectStr
    cases h : splitOnce '@' s with
    | none =>
      simp only [h]
      rw [ne_nil_isEmpty_false _ (splitChar_ne_nil ',' s)]
      simp
    | some v =>
      rcases v with ⟨v1, v2⟩
      simp only [h]
      rw [ne_nil_isEmpty_false _ (splitChar_ne_nil ',' (trimS v1))]
      simp only [Bool.false_eq_true, if_false]
      cases hd : (trimS v2 == "") with
      | true =>
        have hd2 : trimS v2 = "" := eq_of_beq hd
        simp [hd, hd2]
      | false =>
        have hd2 : ¬ trimS v2 = "" := by
          intro hx
          rw [hx] at hd
          simp at hd
        simp only [hd, Bool.false_eq_true, if_false]
        cases hm : (splitChar ',' (trimS v2)).mapM compile with
        | none =>
          simp only [hm, Option.isSome_none]
          constructor
          · intro hx
            cases hx
          · intro hx
            rcases hx with hx | hx
            · exact absurd hx hd2
            · have : ((splitChar ',' (trimS v2)).mapM compile).isSome = true :=
                (mapM_option_isSome compile _).mpr hx
              rw [hm] at this
              cases this
        | some detects =>
          simp only [hm, Option.isSome_some, true_iff]
          refine Or.inr ?_
          have : ((splitChar ',' (trimS v2)).mapM compile).isSome = true := by
            rw [hm]; rfl
          exact (mapM_option_isSome compile _).mp this

mutual
theorem duEntry_eq : ∀ (n : FNode),
    duEntry n = (if hasUnreadable n then Except.error () else Except.ok (totalLen n))
  | .file l a => by simp [duEntry, hasUnreadable, totalLen]
  | .dir false a cs => by simp [duEntry, hasUnreadable]
  | .dir true a cs => by
    have h := duDir_eq cs
    simp [duEntry, hasUnreadable, totalLen, h]
theorem duDir_eq : ∀ (cs : List (String × FNode)),
    duDir cs = (if hasUnreadableDir cs then Except.error () else Except.ok (totalLenDir cs))
  | [] => by simp [duDir, hasUnreadableDir, totalLenDir]
  | (nm, child) :: rest => by
    have h1 := duEntry_eq child
    have h2 := duDir_eq rest
    cases hu : hasUnreadable child <;> cases hur : hasUnreadableDir rest <;>
      simp_all [duDir, hasUnreadableDir, totalLenDir]
end

/-- C7 counterexample: a readable directory holding a 5-byte file and an
unreadable subdirectory: the readable part totals 5 bytes, but `du` aborts with
an error instead of returning a best-effort total. -/
theorem c7_counterexample :
    du treeBadSub = Except.error () ∧ totalLen treeBadSub = 5 := ⟨rfl, rfl⟩

/-- C7 amended: `du` totals the metadata lengths of the regular files strictly
below the root (a failed metadata lookup contributes zero, directories
contribute nothing in themselves, hidden files are included, and a regular-file
root contributes nothing), except that any unreadable directory in the tree
aborts the sum with an error, after which the caller records the size as
unknown. -/
theorem c7_du_characterization (n : FNode) :
    du n = (if hasUnreadable n then Except.error () else Except.ok (duTotal n)) := by
  cases n with
  | file l a => simp [du, hasUnreadable, duTotal]
  | dir r a cs =>
    cases r
    · simp [du, hasUnreadable]
    · have h := duDir_eq cs
      simp [du, hasUnreadable, duTotal, h]

theorem mem_emitPurge (cfg : Config) (p : List String) (node : FNode)
    (rid purge : String) (m : Message) (h : m ∈ emitPurge cfg p node rid purge) :
    ∃ t, node.lookup (tailParts purge) = some t ∧
      timeSkip cfg t.age = false ∧ sizeSkip cfg (exceptToOption (du t)) = false ∧
      m = Message.AddPath
        { path := p ++ tailParts purge, relative_path := p ++ tailParts purge,
          rule_id := rid, time := t.age, size := exceptToOption (du t),
          state := .Normal } := by
  unfold emitPurge at h
  cases hl : node.lookup (tailParts purge) with
  | none =>
    simp only [hl] at h
    cases h
  | some t =>
    simp only [hl] at h
    cases ht : timeSkip cfg t.age with
    | true =>
      rw [ht] at h
      simp at h
    | false =>
      rw [ht] at h
      simp only [Bool.false_eq_true, if_false] at h
      cases hs : sizeSkip cfg (exceptToOption (du t)) with
      | true =>
        rw [hs] at h
        simp at h
      | false =>
        rw [hs] at h
        simp only [Bool.false_eq_true, if_false, List.mem_singleton] at h
        exact ⟨t, rfl, ht, hs, h⟩

theorem emitEntry_addpath (cfg : Config) (it : WalkItem) (m : Message)
    (h : m ∈ emitEntry cfg it) : ∃ item, m = Message.AddPath item := by
  cases it with
  | err => cases h
  | ok p node st =>
    cases st with
    | none => cases h
    | some state =>
      rcases state with ⟨rid, purges⟩
      unfold emitEntry at h
      rcases List.mem_flatMap.mp h with ⟨purge, _, hm⟩
      rcases mem_emitPurge cfg p node rid purge m hm with ⟨t, _, _, _, heq⟩
      exact ⟨_, heq⟩

theorem searchLoop_emits (cfg : Config) (running : Nat → Bool) :
    ∀ (items : List WalkItem) (i : Nat),
      ∃ pre, searchLoop cfg running i items = pre ++ [Message.DoneSearch] ∧
        ∀ m ∈ pre, ∃ it, m = Message.AddPath it := by
  intro items
  induction items with
  | nil =>
    intro i
    exact ⟨[], rfl, by simp⟩
  | cons it rest ih =>
    intro i
    unfold searchLoop
    cases hr : running i with
    | false =>
      simp only [Bool.false_eq_true, if_false]
      exact ⟨[], rfl, by simp⟩
    | true =>
      simp only [if_true]
      rcases ih (i + 1) with ⟨pre, heq, hall⟩
      refine ⟨emitEntry cfg it ++ pre, by rw [heq, List.append_assoc], ?_⟩
      intro m hm
      rcases List.mem_append.mp hm with h | h
      · exact emitEntry_addpath cfg it m h
      · exact hall m h

theorem searchLoop_take (cfg : Config) (running : Nat → Bool) :
    ∀ (items : List WalkItem) (i0 k : Nat), running (i0 + k) = false →
      searchLoop cfg running i0 items = searchLoop cfg running i0 (items.take k) := by
  intro items
  induction items with
  | nil =>
    intro i0 k _
    rw [List.take_nil]
  | cons it rest ih =>
    intro i0 k h
    cases k with
    | zero =>
      rw [Nat.add_zero] at h
      rw [List.take_zero]
      unfold searchLoop
      rw [h]
      simp
    | succ k0 =>
      rw [List.take_succ_cons]
      unfold searchLoop
      cases hr : running i0 with
      | false => simp [hr]
      | true =>
        simp only [if_true]
        have h2 : running (i0 + 1 + k0) = false := by
          rw [show i0 + 1 + k0 = i0 + (k0 + 1) from by omega]
          exact h
        rw [ih (i0 + 1) k0 h2]

/-- C4: every scan run sends exactly one `DoneSearch`: the messages are a prefix
of `AddPath`s followed by the single terminal `DoneSearch`; moreover if the
cancellation poll at stream index `i` reads false, the run's messages are
exactly those of the first `i` stream items followed at once by `DoneSearch` —
nothing is emitted at or after the failed poll. -/
theorem c4_single_done (cfg : Config) (ord : List String) (root : FNode)
    (running : Nat → Bool) :
    (∃ pre, searchRun cfg ord root running = pre ++ [Message.DoneSearch] ∧
      ∀ m ∈ pre, ∃ it, m = Message.AddPath it) ∧
    (∀ i, running i = false →
      searchRun cfg ord root running =
        searchLoop cfg running 0 ((searchWalk cfg ord root).take i)) := by
  constructor
  · exact searchLoop_emits cfg running (searchWalk cfg ord root) 0
  · intro i hi
    unfold searchRun
    exact searchLoop_take cfg running (searchWalk cfg ord root) 0 i (by simpa using hi)

/-- Witness for C4: a concrete run whose flag lowers after the first poll emits
its prefix and exactly one final `DoneSearch`. -/
theorem c4_single_done_witness :
    (∃ pre, searchRun cfgTC ordTC treeFileTrigger (fun i => decide (i < 1)) =
        pre ++ [Message.DoneSearch] ∧ ∀ m ∈ pre, ∃ it, m = Message.AddPath it) ∧
    searchRun cfgTC ordTC treeFileTrigger (fun i => decide (i < 1)) =
      searchLoop cfgTC (fun i => decide (i < 1)) 0
        ((searchWalk cfgTC ordTC treeFileTrigger).take 1) :=
  ⟨(c4_single_done cfgTC ordTC treeFileTrigger (fun i => decide (i < 1))).1,
    (c4_single_done cfgTC ordTC treeFileTrigger (fun i => decide (i < 1))).2 1 (by decide)⟩

theorem delete_all_loop_eq (items : List PathItem) :
    delete_all_loop items =
      (items.map (fun item =>
        if item.state = PathState.Normal ∧ item.size.isSome = true then
          { item with state := PathState.StartDeleting } else item),
       items.filterMap (fun item =>
        if item.state = PathState.Normal ∧ item.size.isSome = true then
          some item.path else none)) := by
  induction items with
  | nil => rfl
  | cons item rest ih =>
    unfold delete_all_loop
    rw [ih]
    by_cases h : item.state = PathState.Normal ∧ item.size.isSome = true
    · simp [h]
    · simp [h]

/-- C9: a deletion request on an item whose state is not `Normal` or whose size
is unknown is ignored — the app is unchanged and nothing is dispatched;
otherwise the item moves from `Normal` to `StartDeleting` and its path is
dispatched; `delete_all_items` does the same for every listed item at once. -/
theorem c9_delete_requests (app : AppModel) :
    (∀ i item, app.selected = some i → app.items.get? i = some item →
      (item.state ≠ PathState.Normal ∨ item.size = none) →
      start_deleting_item app = (app, none)) ∧
    (∀ i item, app.selected = some i → app.items.get? i = some item →
      item.state = PathState.Normal → item.size ≠ none →
      start_deleting_item app =
        ({ app with items := app.items.set i { item with state := .StartDeleting } },
          some item.path)) ∧
    (delete_all_items app =
      ({ app with items := app.items.map (fun item =>
          if item.state = PathState.Normal ∧ item.size.isSome = true then
            { item with state := PathState.StartDeleting } else item) },
        app.items.filterMap (fun item =>
          if item.state = PathState.Normal ∧ item.size.isSome = true then
            some item.path else none))) := by
  refine ⟨?_, ?_, ?_⟩
  · intro i item hsel hget hcond
    simp only [start_deleting_item, hsel, hget]
    rw [if_pos hcond]
  · intro i item hsel hget hstate hsize
    simp only [start_deleting_item, hsel, hget]
    rw [if_neg (by
      intro hc
      rcases hc with hc | hc
      · exact hc hstate
      · exact hsize hc)]
  · unfold delete_all_items
    rw [delete_all_loop_eq]

/-- Witness for C9: the selected `Normal` item with a known size moves to
`StartDeleting` and its path is dispatched. -/
theorem c9_delete_requests_witness :
    start_deleting_item appW =
      ({ appW with items := appW.items.set 0 { itemW with state := .StartDeleting } },
        some itemW.path) :=
  (c9_delete_requests appW).2.1 0 itemW rfl rfl rfl (by simp [itemW])

/-- C10: a failed age or size measurement never makes the corresponding filter
skip a candidate (conjuncts one and two); an existing candidate passing both
guards is emitted with exactly the measured optional fields (conjunct three);
and a filter skips only when it is configured, the measurement succeeded, and
the comparison against the configured value fails (conjuncts four and five). -/
theorem c10_filter_gating (cfg : Config) (p : List String) (node : FNode)
    (rid purge : String) (t : FNode)
    (hl : node.lookup (tailParts purge) = some t) :
    (timeSkip cfg none = false) ∧
    (sizeSkip cfg none = false) ∧
    (timeSkip cfg t.age = false → sizeSkip cfg (exceptToOption (du t)) = false →
      emitPurge cfg p node rid purge =
        [Message.AddPath
          { path := p ++ tailParts purge, relative_path := p ++ tailParts purge,
            rule_id := rid, time := t.age, size := exceptToOption (du t),
            state := .Normal }]) ∧
    (∀ b, timeSkip cfg b = true →
      ∃ e o a, cfg.time = some (e, o) ∧ b = some a ∧ compare o e (ceilDays a) = false) ∧
    (∀ b, sizeSkip cfg b = true →
      ∃ e o a, cfg.size = some (e, o) ∧ b = some a ∧ compare o e a = false) := by
  refine ⟨?_, ?_, ?_, ?_, ?_⟩
  · unfold timeSkip
    cases cfg.time with
    | none => rfl
    | some f => cases f; rfl
  · unfold sizeSkip
    cases cfg.size with
    | none => rfl
    | some f => cases f; rfl
  · intro ht hs
    simp only [emitPurge, hl, ht, hs]
    simp
  · intro b hb
    unfold timeSkip at hb
    cases hc : cfg.time with
    | none => rw [hc] at hb; cases b <;> simp at hb
    | some f =>
      rcases f with ⟨e, o⟩
      rw [hc] at hb
      cases b with
      | none => simp at hb
      | some a =>
        refine ⟨e, o, a, rfl, rfl, ?_⟩
        simp at hb
        exact hb
  · intro b hb
    unfold sizeSkip at hb
    cases hc : cfg.size with
    | none => rw [hc] at hb; cases b <;> simp at hb
    | some f =>
      rcases f with ⟨e, o⟩
      rw [hc] at hb
      cases b with
      | none => simp at hb
      | some a =>
        refine ⟨e, o, a, rfl, rfl, ?_⟩
        simp at hb
        exact hb

/-- Witness for C10: a candidate whose mtime lookup failed (`age = none`) and
whose size is measurable is emitted with `time := none` despite a configured
time filter. -/
theorem c10_filter_gating_witness :
    (timeSkip cfgTimeF none = false) ∧
    emitPurge cfgTimeF [] (FNode.file (some 7) none) "r" "x" =
      [Message.AddPath
        { path := [], relative_path := [], rule_id := "r", time := none,
          size := some 0, state := .Normal }] := by
  have h := c10_filter_gating cfgTimeF [] (FNode.file (some 7) none) "r" "x"
    (FNode.file (some 7) none) rfl
  exact ⟨h.1, h.2.2.1 rfl rfl⟩

theorem lookup_nil (n : FNode) : n.lookup [] = some n := by
  cases n <;> rfl

theorem lookup_append :
    ∀ (a : List String) (n : FNode) (b : List String),
      n.lookup (a ++ b) = (n.lookup a).bind (fun m => m.lookup b) := by
  intro a
  induction a with
  | nil =>
    intro n b
    rw [List.nil_append, lookup_nil]
    rfl
  | cons part rest ih =>
    intro n b
    cases n with
    | file l g => rfl
    | dir r g cs =>
      show FNode.lookup (.dir r g cs) (part :: (rest ++ b)) = _
      cases hf : cs.find? (fun e => e.1 == part) with
      | none =>
        simp only [FNode.lookup, hf]
        rfl
      | some e =>
        simp only [FNode.lookup, hf]
        exact ih e.2 b

theorem find?_pair_of_nodup :
    ∀ (cs : List (String × FNode)), (cs.map Prod.fst).Nodup →
      ∀ name child, (name, child) ∈ cs →
        cs.find? (fun e => e.1 == name) = some (name, child) := by
  intro cs
  induction cs with
  | nil =>
    intro _ name child h
    cases h
  | cons e0 rest ih =>
    intro hnd name child h
    rw [List.map_cons, List.nodup_cons] at hnd
    cases hb : (e0.1 == name)
    · have hne : (name, child) ≠ e0 := by
        intro he
        rw [← he] at hb
        simp at hb
      have hmem : (name, child) ∈ rest := by
        rcases List.mem_cons.mp h with h1 | h1
        · exact absurd h1 hne
        · exact h1
      rw [List.find?_cons_of_neg _ (by simp [hb])]
      exact ih hnd.2 name child hmem
    · have heq : e0.1 = name := eq_of_beq hb
      have he0 : e0 = (name, child) := by
        rcases List.mem_cons.mp h with h1 | h1
        · exact h1.symm
        · exfalso
          apply hnd.1
          rw [heq]
          exact List.mem_map_of_mem Prod.fst h1
      have h3 : List.find? (fun e => e.1 == name) (e0 :: rest) = some e0 :=
        List.find?_cons_of_pos _ hb
      rw [h3, he0]

theorem wf_dir_nodup {r : Bool} {a : Option Nat} {cs : List (String × FNode)}
    (h : FNode.Wf (.dir r a cs)) : (cs.map Prod.fst).Nodup := by
  cases h
  assumption

theorem wf_dir_children {r : Bool} {a : Option Nat} {cs : List (String × FNode)}
    (h : FNode.Wf (.dir r a cs)) : ∀ e ∈ cs, FNode.Wf e.2 := by
  cases h
  assumption

mutual

theorem walkChildren_spec (cfg : Config) (ord : List String) :
    ∀ (p : List String) (n : FNode) (it : WalkItem),
      it ∈ walkChildren cfg ord p n → WalkOkSpec cfg p n it
  | p, .file l a, it => by
    intro hit
    cases hit
  | p, .dir false a cs, it => by
    intro hit
    intro q m st heq
    rcases List.mem_singleton.mp hit with rfl
    cases heq
  | p, .dir true a cs, it => by
    intro hit
    have hgo := goChildren_spec cfg ord p
      (to_matches cfg ord (checkedNames cfg (cs.map Prod.fst))) cs it hit
    intro q m st heq
    rcases hgo q m st heq with ⟨name, child, rel2, hmem, hq, hlook, hexcl⟩
    refine ⟨name :: rel2, by simp, hq, ?_, ?_⟩
    · intro hwf
      have hnd := wf_dir_nodup hwf
      have hfind := find?_pair_of_nodup cs hnd name child hmem
      show FNode.lookup (FNode.dir true a cs) (name :: rel2) = some m
      simp only [FNode.lookup, hfind]
      exact hlook (wf_dir_children hwf (name, child) hmem)
    · intro hst s hs
      rcases hexcl hst with ⟨h1, h2⟩
      rcases List.mem_cons.mp hs with rfl | hs2
      · exact h1
      · exact h2 s hs2

theorem goChildren_spec (cfg : Config) (ord : List String) :
    ∀ (p : List String) (ms : MatchMap) (cs : List (String × FNode)) (it : WalkItem),
      it ∈ goChildren cfg ord p ms cs → GoSpec cfg p cs it
  | p, ms, [], it => by
    intro hit
    cases hit
  | p, ms, (name, child) :: rest, it => by
    intro hit
    unfold goChildren at hit
    cases hx : cfg.exclude.contains name with
    | true =>
      rw [if_pos hx] at hit
      rcases List.mem_cons.mp hit with rfl | hit2
      · intro q m st heq
        cases heq
        refine ⟨name, child, [], List.mem_cons_self _ _, rfl, ?_, ?_⟩
        · intro _
          exact lookup_nil child
        · intro hst
          exact absurd rfl hst
      · intro q m st heq
        rcases goChildren_spec cfg ord p ms rest it hit2 q m st heq with
          ⟨n2, c2, rel2, hmem, hq, hlook, hexcl⟩
        exact ⟨n2, c2, rel2, List.mem_cons_of_mem _ hmem, hq, hlook, hexcl⟩
    | false =>
      rw [if_neg (by rw [hx]; simp)] at hit
      cases hfind : ms.find? (fun m0 => m0.1 == name) with
      | some m0 =>
        simp only [hfind] at hit
        rcases List.mem_cons.mp hit with rfl | hit2
        · intro q m st heq
          cases heq
          refine ⟨name, child, [], List.mem_cons_self _ _, rfl, ?_, ?_⟩
          · intro _
            exact lookup_nil child
          · intro _
            exact ⟨hx, by intro s hs; cases hs⟩
        · intro q m st heq
          rcases goChildren_spec cfg ord p ms rest it hit2 q m st heq with
            ⟨n2, c2, rel2, hmem, hq, hlook, hexcl⟩
          exact ⟨n2, c2, rel2, List.mem_cons_of_mem _ hmem, hq, hlook, hexcl⟩
      | none =>
        simp only [hfind] at hit
        rcases List.mem_cons.mp hit with rfl | hit2
        · intro q m st heq
          cases heq
          refine ⟨name, child, [], List.mem_cons_self _ _, rfl, ?_, ?_⟩
          · intro _
            exact lookup_nil child
          · intro hst
            exact absurd rfl hst
        · rcases List.mem_append.mp hit2 with hwalk | hrest
          · intro q m st heq
            rcases walkChildren_spec cfg ord (p ++ [name]) child it hwalk q m st heq with
              ⟨rel, hrelne, hq, hlook, hexcl⟩
            refine ⟨name, child, rel, List.mem_cons_self _ _, ?_, hlook, ?_⟩
            · rw [hq, List.append_assoc]
              rfl
            · intro hst
              exact ⟨hx, hexcl hst⟩
          · intro q m st heq
            rcases goChildren_spec cfg ord p ms rest it hrest q m st heq with
              ⟨n2, c2, rel2, hmem, hq, hlook, hexcl⟩
            exact ⟨n2, c2, rel2, List.mem_cons_of_mem _ hmem, hq, hlook, hexcl⟩

end

theorem searchLoop_msg_source (cfg : Config) (running : Nat → Bool) :
    ∀ (items : List WalkItem) (i : Nat) (m : Message),
      m ∈ searchLoop cfg running i items →
      m = Message.DoneSearch ∨ ∃ it ∈ items, m ∈ emitEntry cfg it := by
  intro items
  induction items with
  | nil =>
    intro i m h
    rcases List.mem_singleton.mp h with rfl
    exact Or.inl rfl
  | cons it rest ih =>
    intro i m h
    unfold searchLoop at h
    cases hr : running i with
    | false =>
      rw [hr] at h
      simp only [Bool.false_eq_true, if_false, List.mem_singleton] at h
      exact Or.inl h
    | true =>
      rw [hr] at h
      simp only [if_true] at h
      rcases List.mem_append.mp h with h1 | h1
      · exact Or.inr ⟨it, List.mem_cons_self _ _, h1⟩
      · rcases ih (i + 1) m h1 with h2 | ⟨it2, hit2, hm2⟩
        · exact Or.inl h2
        · exact Or.inr ⟨it2, List.mem_cons_of_mem _ hit2, hm2⟩

theorem mem_emitEntry (cfg : Config) (it : WalkItem) (m : Message)
    (h : m ∈ emitEntry cfg it) :
    ∃ q node rid purges purge t,
      it = WalkItem.ok q node (some (rid, purges)) ∧ purge ∈ purges ∧
      node.lookup (tailParts purge) = some t ∧
      m = Message.AddPath
        { path := q ++ tailParts purge, relative_path := q ++ tailParts purge,
          rule_id := rid, time := t.age, size := exceptToOption (du t),
          state := .Normal } := by
  cases it with
  | err => cases h
  | ok q node st =>
    cases st with
    | none => cases h
    | some state =>
      rcases state with ⟨rid, purges⟩
      unfold emitEntry at h
      rcases List.mem_flatMap.mp h with ⟨purge, hp, hm⟩
      rcases mem_emitPurge cfg q node rid purge m hm with ⟨t, hl, _, _, heq⟩
      exact ⟨q, node, rid, purges, purge, t, rfl, hp, hl, heq⟩

/-- C3 counterexample: with rule `target@Cargo.toml` and a directory containing
the regular files `target` and `Cargo.toml`, the walker emits an `AddPath`
whose absolute path resolves to the regular FILE `target`: an emitted path is
not always a directory. -/
theorem c3_counterexample :
    searchRun cfgTC ordTC treeFileTrigger (fun _ => true) =
      [Message.AddPath
        { path := ["target"], relative_path := ["target"],
          rule_id := "target@Cargo.toml", time := none, size := some 0,
          state := .Normal },
       Message.DoneSearch] ∧
    treeFileTrigger.lookup ["target"] = some (FNode.file (some 3) none) := ⟨rfl, rfl⟩

/-- C3 amended: every `AddPath` the Walker emits carries a path that exists in
the scanned tree at emission time (the emission loop skips non-existing
resolved paths, and the modelled tree is immutable during the scan); the
emitted path need not be a directory — a regular file whose name matches a
trigger is emitted too. -/
theorem c3_emitted_path_exists (cfg : Config) (ord : List String) (root : FNode)
    (running : Nat → Bool) (item : PathItem) (hwf : FNode.Wf root)
    (hmem : Message.AddPath item ∈ searchRun cfg ord root running) :
    root.lookup item.path ≠ none := by
  unfold searchRun at hmem
  rcases searchLoop_msg_source cfg running _ 0 _ hmem with h | ⟨it, hit, hm⟩
  · cases h
  · unfold searchWalk at hit
    rcases mem_emitEntry cfg it _ hm with
      ⟨q, node, rid, purges, purge, t, hitshape, hp, hl, heq⟩
    have hpath : item.path = q ++ tailParts purge := by
      injection heq with h1
      rw [h1]
    rcases List.mem_cons.mp hit with rfl | hwalk
    · cases hitshape
    · rcases walkChildren_spec cfg ord [] root it hwalk q node _ hitshape with
        ⟨rel, hrelne, hq, hlook, _⟩
      have hrootq : root.lookup q = some node := by
        rw [hq, List.nil_append]
        exact hlook hwf
      rw [hpath, lookup_append, hrootq]
      simp [hl]

/-- Witness for C3 amended: the path of the item emitted from the file-trigger
tree exists in that tree. -/
theorem c3_emitted_path_exists_witness :
    FNode.Wf treeFileTrigger ∧
    treeFileTrigger.lookup
      ({ path := ["target"], relative_path := ["target"],
         rule_id := "target@Cargo.toml", time := none, size := some 0,
         state := .Normal } : PathItem).path ≠ none := by
  have hwf : FNode.Wf treeFileTrigger := by
    refine FNode.Wf.dir _ _ _ (by decide) ?_
    intro e he
    simp only [treeFileTrigger, List.mem_cons, List.not_mem_nil, or_false] at he
    rcases he with rfl | rfl
    · exact FNode.Wf.file _ _
    · exact FNode.Wf.file _ _
  have hrun : searchRun cfgTC ordTC treeFileTrigger (fun _ => true) =
      [Message.AddPath
        { path := ["target"], relative_path := ["target"],
          rule_id := "target@Cargo.toml", time := none, size := some 0,
          state := .Normal },
       Message.DoneSearch] := rfl
  refine ⟨hwf, ?_⟩
  apply c3_emitted_path_exists cfgTC ordTC treeFileTrigger (fun _ => true) _ hwf
  rw [hrun]
  exact List.mem_cons_self _ _

/-- C8 counterexample: with `target` excluded and the nested rule
`project/target`, the walker still emits `project/target` — the excluded name
appears as the tail segment of the emitted relative path. -/
theorem c8_counterexample :
    searchRun cfgPT ["project/target"] treeNested (fun _ => true) =
      [Message.AddPath
        { path := ["project", "target"], relative_path := ["project", "target"],
          rule_id := "project/target", time := none, size := some 0,
          state := .Normal },
       Message.DoneSearch] ∧
    "target" ∈ cfgPT.exclude ∧
    "target" ∈ (["project", "target"] : List String) := ⟨rfl, by decide, by decide⟩

/-- C8 amended: every emitted `AddPath` arises from a marked stream entry — the
matched trigger entry, carrying `some (rid, purges)` — whose path `q` ends at
the trigger segment: the emitted path is exactly `q` followed by the tail of
one of that rule's purge paths, the emitted rule id is that entry's rule id,
and no segment of `q` — the trigger itself or any ancestor — is an excluded
name; only the appended tail segments of a nested purge path can coincide with
an excluded name. -/
theorem c8_trigger_path_not_excluded (cfg : Config) (ord : List String)
    (root : FNode) (running : Nat → Bool) (item : PathItem)
    (hmem : Message.AddPath item ∈ searchRun cfg ord root running) :
    ∃ q node rid purges purge,
      WalkItem.ok q node (some (rid, purges)) ∈ searchWalk cfg ord root ∧
      purge ∈ purges ∧
      item.path = q ++ tailParts purge ∧
      item.rule_id = rid ∧
      q ≠ [] ∧
      ∀ s ∈ q, cfg.exclude.contains s = false := by
  unfold searchRun at hmem
  rcases searchLoop_msg_source cfg running _ 0 _ hmem with h | ⟨it, hit, hm⟩
  · cases h
  · rcases mem_emitEntry cfg it _ hm with
      ⟨q, node, rid, purges, purge, t0, hitshape, hp, hl, heq⟩
    subst hitshape
    have hpath : item.path = q ++ tailParts purge := by
      injection heq with h1
      rw [h1]
    have hrid : item.rule_id = rid := by
      injection heq with h1
      rw [h1]
    have hsplit : q ≠ [] ∧ ∀ s ∈ q, cfg.exclude.contains s = false := by
      have hit2 := hit
      unfold searchWalk at hit2
      rcases List.mem_cons.mp hit2 with heq2 | hwalk
      · cases heq2
      · rcases walkChildren_spec cfg ord [] root _ hwalk q node _ rfl with
          ⟨rel, hrelne, hq, _, hexcl⟩
        constructor
        · rw [hq, List.nil_append]
          exact hrelne
        · intro s hs
          rw [hq, List.nil_append] at hs
          exact hexcl (by simp) s hs
    exact ⟨q, node, rid, purges, purge, hit, hp, hpath, hrid, hsplit.1, hsplit.2⟩

/-- Witness for C8 amended: the emitted path `project/target` is the
non-excluded matched trigger path `project` followed by the purge tail
`target` of the marked entry's rule. -/
theorem c8_trigger_path_not_excluded_witness :
    ∃ q node rid purges purge,
      WalkItem.ok q node (some (rid, purges)) ∈
        searchWalk cfgPT ["project/target"] treeNested ∧
      purge ∈ purges ∧
      (["project", "target"] : List String) = q ++ tailParts purge ∧
      ("project/target" : String) = rid ∧
      q ≠ [] ∧
      ∀ s ∈ q, cfgPT.exclude.contains s = false := by
  have hrun : searchRun cfgPT ["project/target"] treeNested (fun _ => true) =
      [Message.AddPath
        { path := ["project", "target"], relative_path := ["project", "target"],
          rule_id := "project/target", time := none, size := some 0,
          state := .Normal },
       Message.DoneSearch] := rfl
  have h := c8_trigger_path_not_excluded cfgPT ["project/target"] treeNested
    (fun _ => true)
    { path := ["project", "target"], relative_path := ["project", "target"],
      rule_id := "project/target", time := none, size := some 0,
      state := .Normal }
    (by rw [hrun]; exact List.mem_cons_self _ _)
  exact h

end Projclean
